import Mathlib

/-!
A verification development for the ESP32 chip-configuration repository.

The repository's core (`codes/register_assignment.py`) maps a dictionary of
named field values onto a 128-bit configuration register (`config_bits`,
indexed 0 =LSB to 127 = MSB) and packs it into 16 bytes, MSB first.  The
serial layer (`codes/register2arduino.py`) frames those bytes for the wire
and parses line-oriented acknowledgements.  The GUI normalization layer
(`codes/Analog2Bits.py`) converts raw GUI values to integers.

This file shallowly embeds those functions and proves the specification's
claims about them.  Python machine-level details that matter here:

* `f"{int(value):0{width}b}"` produces the binary representation of
  `value`, MSB first, zero-padded *to a minimum of* `width` characters —
  for `value ≥ 2^width` the string is longer than `width` characters and
  the assignment loop reads only its first `width` characters (the most
  significant bits).  For negative `value` the first character is `'-'`.
* `int(c)` on a one-character string succeeds exactly on digit characters
  and raises `ValueError` on `'-'`.
-/

/-- A named field of the 128-bit register: `bit_offset` is the position of
the field's most-significant bit (LSB = 0 convention, so 127 is the
register MSB) and `width` its number of bits.  Mirrors the hard-coded
positions in `RegisterAssignment`. -/
structure FieldSpec where
  name : String
  bit_offset : Nat
  width : Nat
deriving DecidableEq, Repr

/-- The field catalog hard-coded in `RegisterAssignment`
(`codes/register_assignment.py`), listed in the order the source writes the
fields.  Width-1 entries are the direct `config_bits[pos] = int(...)`
assignments; wider entries are the `assign_bits(start, value, width)`
calls. -/
def catalog : List FieldSpec :=
  [ ⟨"_CSH_EN_8_", 127, 1⟩, ⟨"_CSH_EN_7_", 126, 1⟩, ⟨"_CSH_EN_6_", 125, 1⟩,
    ⟨"_CSH_EN_5_", 124, 1⟩, ⟨"_CSH_EN_4_", 123, 1⟩, ⟨"_CSH_EN_3_", 122, 1⟩,
    ⟨"_CSH_EN_2_", 121, 1⟩, ⟨"_CSH_EN_1_", 120, 1⟩,
    ⟨"_PI_EN_8_", 119, 1⟩, ⟨"_PI_EN_7_", 118, 1⟩, ⟨"_PI_EN_6_", 117, 1⟩,
    ⟨"_PI_EN_5_", 116, 1⟩, ⟨"_PI_EN_4_", 115, 1⟩, ⟨"_PI_EN_3_", 114, 1⟩,
    ⟨"_PI_EN_2_", 113, 1⟩, ⟨"_PI_EN_1_", 112, 1⟩,
    ⟨"_PI_DC_CTRL_", 111, 3⟩, ⟨"_PI_CAP_CTRL_", 108, 5⟩,
    ⟨"_PI_DELAY_CTRL1_", 103, 7⟩, ⟨"_PI_DELAY_CTRL2_", 96, 7⟩,
    ⟨"_PI_DELAY_CTRL3_", 89, 7⟩, ⟨"_PI_DELAY_CTRL4_", 82, 7⟩,
    ⟨"_PI_DELAY_CTRL5_", 75, 7⟩, ⟨"_PI_DELAY_CTRL6_", 68, 7⟩,
    ⟨"_PI_DELAY_CTRL7_", 61, 7⟩, ⟨"_PI_DELAY_CTRL8_", 54, 7⟩,
    ⟨"_PI_SUM_DELAY_CTRL_", 47, 7⟩, ⟨"_PI_TEST_DELAY_CTRL_", 40, 3⟩,
    ⟨"_BPF_SAMP_EN_", 37, 1⟩, ⟨"_BPF_EN_", 36, 1⟩,
    ⟨"_LPF_SAMP_EN_", 35, 1⟩, ⟨"_LPF_EN_", 34, 1⟩,
    ⟨"_BGR_OUT_CTRL_", 33, 3⟩, ⟨"_CSH_ICTRL_", 30, 3⟩,
    ⟨"_PI_ICTRL_", 27, 3⟩, ⟨"_DEMOD_ICTRL_", 24, 3⟩, ⟨"_BUFF_ICTRL_", 21, 3⟩,
    ⟨"_SUM_PI_EN_", 18, 1⟩, ⟨"_DEMOD_ICH_EN_", 17, 1⟩,
    ⟨"_DEMOD_QCH_EN_", 16, 1⟩, ⟨"_LVDS_RES_CTRL_", 15, 1⟩,
    ⟨"_BUFF_EN_", 14, 1⟩, ⟨"_IQ_DIV_EN_", 13, 1⟩, ⟨"_IQ_DIV_RST_", 12, 1⟩,
    ⟨"_CSH_TEST_EN_", 11, 1⟩, ⟨"_CSH_VCM_EN_", 10, 1⟩, ⟨"_PI_TEST_EN_", 9, 1⟩,
    ⟨"_TEST_ADD_", 8, 4⟩, ⟨"_TMUX_SEL_", 4, 4⟩, ⟨"_SPARE_", 0, 1⟩ ]

/-- Largest value representable in a field: `2^width − 1`. -/
def maxValue (f : FieldSpec) : Nat := 2 ^ f.width - 1

/-- `p` lies in `f`'s bit range `[bit_offset − width + 1, bit_offset]`. -/
def inField (f : FieldSpec) (p : Nat) : Prop :=
  p ≤ f.bit_offset ∧ f.bit_offset < p + f.width

instance (f : FieldSpec) (p : Nat) : Decidable (inField f p) :=
  inferInstanceAs (Decidable (_ ∧ _))

/-- The bit ranges of `f` and `g` are disjoint. -/
def rangesDisjoint (f g : FieldSpec) : Prop :=
  f.bit_offset + g.width ≤ g.bit_offset ∨ g.bit_offset + f.width ≤ f.bit_offset

instance (f g : FieldSpec) : Decidable (rangesDisjoint f g) :=
  inferInstanceAs (Decidable (_ ∨ _))

/-- Well-formedness of a field as used by the source: at least one bit,
the range does not run below position 0, and the MSB fits the register. -/
def wfField (f : FieldSpec) : Prop :=
  1 ≤ f.width ∧ f.width ≤ f.bit_offset + 1 ∧ f.bit_offset < 128

instance (f : FieldSpec) : Decidable (wfField f) :=
  inferInstanceAs (Decidable (_ ∧ _))

/-- Binary representation of `n`, MSB first, as characters (`"0"` for 0),
exactly the characters Python's `f"{n:b}"` produces.  Fuel-indexed so that
the definition is structural and evaluates inside the kernel. -/
def binCharsAux : Nat → Nat → List Char
  | 0, _ => []
  | fuel + 1, n =>
    if n < 2 then [Nat.digitChar n]
    else binCharsAux fuel (n / 2) ++ [Nat.digitChar (n % 2)]

/-- Binary representation of `n`, MSB first (`['0']` for 0). -/
def binChars (n : Nat) : List Char := binCharsAux (n + 1) n

/-- The characters of Python's `f"{n:0{w}b}"` for a non-negative `n`:
the binary representation of `n`, left-padded with `'0'` to a *minimum*
width of `w` (never truncated). -/
def pyBinFmtN (n w : Nat) : List Char :=
  List.replicate (w - (binChars n).length) '0' ++ binChars n

/-- Numeric value of a digit character, as Python's `int(c)` computes it. -/
def charVal (c : Char) : Nat := c.toNat - '0'.toNat

/-- Shallow embedding of the source's `assign_bits(start_bit, value, width)`
(`codes/register_assignment.py` lines 45–56) for non-negative values:
`bits = f"{value:0{width}b}"`, then
`for i in range(width): config_bits[start_bit - i] = int(bits[i])`. -/
def assign_bits (cfg : List Nat) (start value width : Nat) : List Nat :=
  let bits := pyBinFmtN value width
  (List.range width).foldl (fun c i => c.set (start - i) (charVal (bits.getD i '0'))) cfg

/-- One field write of `RegisterAssignment`: width-1 fields are written by
direct assignment `config_bits[bit_offset] = int(v)`, wider fields through
`assign_bits`. -/
def writeField (cfg : List Nat) (f : FieldSpec) (v : Nat) : List Nat :=
  if f.width = 1 then cfg.set f.bit_offset v
  else assign_bits cfg f.bit_offset v f.width

/-- The input dictionary: Python's `bit_dict.get(name, 0)` becomes
`(d name).getD 0`. -/
def FieldValues := String → Option Nat

/-- The `config_bits` array after all field writes of `RegisterAssignment`:
start from 128 zero bits and perform the source's write statements in
source order. -/
def assignCfg (d : FieldValues) : List Nat :=
  catalog.foldl (fun cfg f => writeField cfg f ((d f.name).getD 0))
    (List.replicate 128 0)

/-- One byte of the packing loop of `RegisterAssignment` (lines 159–166):
`for bit_in_byte in range(8): byte_val = (byte_val << 1) | config_bits[127 - (byte_index*8 + bit_in_byte)]`. -/
def packByte (cfg : List Nat) (k : Nat) : Nat :=
  (List.range 8).foldl
    (fun acc j => (acc <<< 1) ||| cfg.getD (127 - (k * 8 + j)) 0) 0

/-- The 16-byte packing of the 128-bit array, byte 0 first (bits 127–120). -/
def packBytes (cfg : List Nat) : List Nat :=
  (List.range 16).map (packByte cfg)

/-- Shallow embedding of `RegisterAssignment(bit_dict)`
(`codes/register_assignment.py`): write every field of the catalog into an
all-zero 128-bit array, then pack into 16 bytes, MSB first. -/
def RegisterAssignment (d : FieldValues) : List Nat :=
  packBytes (assignCfg d)

/-- The value `RegisterAssignment` leaves at slot `i` (counted from the
field's MSB): width-1 fields store the raw value, wider fields store the
`i`-th character of the formatted binary string. -/
def fieldDigit (f : FieldSpec) (v i : Nat) : Nat :=
  if f.width = 1 then v else charVal ((pyBinFmtN v f.width).getD i '0')

/-- The 128-bit vector carried by a 16-byte register image, read back from
the bytes: bit `p` (LSB = 0 convention) is bit `p % 8` of byte `15 - p / 8`.
Modelled from the spec: the spec's `decode` direction unpacks the 16 bytes
into the 128-bit vector (byte 0 holds bits 127–120, MSB first); the
source repository has no decoder. -/
def regBit (bytes : List Nat) (p : Nat) : Nat :=
  bytes.getD (15 - p / 8) 0 / 2 ^ (p % 8) % 2

/-- A dictionary holding a single field's value, the embedding of the
Python literal `{name: v}`. -/
def singleField (name : String) (v : Nat) : FieldValues :=
  fun n => if n = name then some v else none

/-- Modelled from the spec: `decode`'s per-field extraction — read the
field's `width` bits from the unpacked 128-bit vector starting at
`bit_offset`, MSB first, as an unsigned integer.  The source repository
has no decoder; this follows spec section 4.2. -/
def extractField (bytes : List Nat) (f : FieldSpec) : Nat :=
  (List.range f.width).foldl (fun acc i => 2 * acc + regBit bytes (f.bit_offset - i)) 0

/-- Modelled from the spec: `decode(bytes)` — map every catalog field name
to its extracted value (and nothing else).  The source repository has no
decoder; this follows spec section 4.2. -/
def decode (bytes : List Nat) : String → Option Nat :=
  fun name => (catalog.find? fun f => f.name == name).map (extractField bytes)

/-! ### The serial protocol layer (`codes/register2arduino.py`) -/

/-- Python's substring test `token in line`: `token` occurs contiguously
somewhere in `line`. -/
def strContains (line token : String) : Bool :=
  (List.range (line.toList.length + 1)).any fun i =>
    decide (token.toList = (line.toList.drop i).take token.toList.length)

/-- Observable outcome of one protocol operation, one constructor per
return site of the source's response loop: `success` for the
`return True` after a success token, `protocolError msg` for the
`return False` after a line containing `"ERROR"` (the source prints the
peer's line `msg`), `timeout` for the `return False` after the deadline. -/
inductive TransferOutcome
  | success
  | protocolError (msg : String)
  | timeout
deriving DecidableEq, Repr

/-- The response loop shared by `serial_transfer_data` and `serial_reset`
(`codes/register2arduino.py` lines 184–202 and 258–276).  The stream is
abstracted as the list of decoded, stripped lines that become readable
before the timeout deadline, in arrival order; an exhausted list is the
deadline passing.  Empty lines are skipped (`if response:`); a line
containing the success token returns success; otherwise a line containing
`"ERROR"` returns the error with the peer's line. -/
def serialRespond (token : String) : List String → TransferOutcome
  | [] => .timeout
  | line :: rest =>
    if line = "" then serialRespond token rest
    else if strContains line token then .success
    else if strContains line "ERROR" then .protocolError line
    else serialRespond token rest

/-- What a protocol operation does to the stream: the bytes it writes and
the outcome it reports. -/
structure SerialResult where
  written : List Nat
  outcome : TransferOutcome
deriving DecidableEq, Repr

/-- Shallow embedding of `serial_transfer_data(Data, port_name, timeout)`
(`codes/register2arduino.py` lines 161–202): write the frame
`b'<' + bytes(Data) + b'>'` and run the response loop with success token
`"TRANSFER_COMPLETE"`. -/
def serial_transfer_data (Data : List Nat) (lines : List String) : SerialResult :=
  { written := '<'.toNat :: Data ++ ['>'.toNat]
    outcome := serialRespond "TRANSFER_COMPLETE" lines }

/-- Shallow embedding of `serial_reset(port_name, timeout)`
(`codes/register2arduino.py` lines 236–276): write the single byte `b'R'`
and run the response loop with success token `"RESET_COMPLETE"`. -/
def serial_reset (lines : List String) : SerialResult :=
  { written := ['R'.toNat]
    outcome := serialRespond "RESET_COMPLETE" lines }

/-! ### The GUI normalization layer (`codes/Analog2Bits.py`) -/

/-- A raw PySimpleGUI value: a checkbox boolean, a text/dropdown string, or
an already-integral value. -/
inductive GuiVal
  | vB (b : Bool)
  | vS (s : String)
  | vI (n : Int)
deriving DecidableEq, Repr

/-- Decimal value of a digit string, most significant digit first. -/
def digitsVal (l : List Char) : Nat :=
  l.foldl (fun a c => 10 * a + (c.toNat - '0'.toNat)) 0

/-- Python's `int(s)` on a stripped string: an optional sign followed by at
least one decimal digit; anything else raises `ValueError` (`none`). -/
def parseIntChars : List Char → Option Int
  | [] => none
  | c :: rest =>
    if c = '-' then
      if rest.length ≠ 0 ∧ rest.all Char.isDigit
      then some (-(digitsVal rest : Int)) else none
    else if c = '+' then
      if rest.length ≠ 0 ∧ rest.all Char.isDigit
      then some ((digitsVal rest : Int)) else none
    else if (c :: rest).all Char.isDigit
    then some ((digitsVal (c :: rest) : Int)) else none

/-- Python's `str.strip()`: drop whitespace from both ends. -/
def pyStrip (l : List Char) : List Char :=
  ((l.dropWhile Char.isWhitespace).reverse.dropWhile Char.isWhitespace).reverse

/-- Python's `int(value)` on a GUI value: `True`/`False` give 1/0, an
integer is returned unchanged, and a string is parsed after stripping
surrounding whitespace (`none` models the raised `ValueError`). -/
def pyInt : GuiVal → Option Int
  | .vB b => some (if b then 1 else 0)
  | .vI n => some n
  | .vS s => parseIntChars (pyStrip s.toList)

/-- Shallow embedding of `An2Bits(gui_dict)` (`codes/Analog2Bits.py`):
convert every value with `int(...)`; on `ValueError`/`TypeError` print a
warning and store 0 instead.  The dictionary is modelled as an ordered
association list. -/
def An2Bits (gui : List (String × GuiVal)) : List (String × Int) :=
  gui.map fun kv => (kv.1, match pyInt kv.2 with | some n => n | none => 0)

/-! ### `assign_bits` on signed inputs -/

deriving instance DecidableEq for Except

/-- Python's `int(c)` on a one-character slice of the formatted string:
digit characters convert, the sign character `'-'` raises `ValueError`. -/
def pyCharInt (c : Char) : Except String Nat :=
  if c.isDigit then .ok (c.toNat - '0'.toNat) else .error "ValueError"

/-- The characters of `f"{v:0{w}b}"` for a signed `v`: a negative value is
rendered as `'-'` followed by the magnitude, zero-padded so the *total*
length (sign included) reaches `w`. -/
def pyBinFmt (v : Int) (w : Nat) : List Char :=
  if v < 0 then '-' :: pyBinFmtN (-v).toNat (w - 1) else pyBinFmtN v.toNat w

/-- Shallow embedding of `assign_bits(start_bit, value, width)` for a
possibly negative `value`: each loop iteration parses `bits[i]` with
`int(...)`, which raises (`Except.error`) on the sign character. -/
def assign_bitsZ (cfg : List Nat) (start : Nat) (v : Int) (w : Nat) :
    Except String (List Nat) :=
  let bits := pyBinFmt v w
  (List.range w).foldlM (fun c i => do
    let d ← pyCharInt (bits.getD i '0')
    pure (c.set (start - i) d)) cfg

/-! ### Concrete inputs used by the scenario claims -/

/-- The spec's concrete scenario B input, `{_CSH_EN_8_: 1}`. -/
def scenarioB : FieldValues := singleField "_CSH_EN_8_" 1

/-- The spec's concrete scenario C input, `{_TEST_ADD_: 5, _TMUX_SEL_: 10}`. -/
def scenarioC : FieldValues :=
  fun n => if n = "_TEST_ADD_" then some 5
    else if n = "_TMUX_SEL_" then some 10 else none

/-- An overflowing input for the 4-bit `_TEST_ADD_` field. -/
def overflowC3 : FieldValues := singleField "_TEST_ADD_" 16

/-! ### Properties of the binary-string formatting -/

theorem binCharsAux_irrel (fuel : Nat) : ∀ fuel' n, n < fuel → n < fuel' →
    binCharsAux fuel n = binCharsAux fuel' n := by
  induction fuel with
  | zero => intro fuel' n h h'; omega
  | succ fuel ih =>
    intro fuel' n h h'
    cases fuel' with
    | zero => omega
    | succ fuel' =>
      simp only [binCharsAux]
      by_cases h2 : n < 2
      · simp [h2]
      · simp only [if_neg h2]
        rw [ih fuel' (n / 2) (by omega) (by omega)]

/-- The recursion equation of `binChars`. -/
theorem binChars_eq (n : Nat) :
    binChars n
      = if n < 2 then [Nat.digitChar n]
        else binChars (n / 2) ++ [Nat.digitChar (n % 2)] := by
  show binCharsAux (n + 1) n = _
  simp only [binCharsAux]
  by_cases h2 : n < 2
  · simp [h2]
  · simp only [if_neg h2]
    rw [binCharsAux_irrel n (n / 2 + 1) (n / 2) (by omega) (by omega)]
    rfl

theorem binChars_length_pos (n : Nat) : 1 ≤ (binChars n).length := by
  induction n using Nat.strong_induction_on with
  | _ n ih =>
    rw [binChars_eq]
    by_cases h2 : n < 2
    · simp [h2]
    · simp only [if_neg h2, List.length_append, List.length_singleton]
      omega

theorem lt_two_pow_binChars (n : Nat) : n < 2 ^ (binChars n).length := by
  induction n using Nat.strong_induction_on with
  | _ n ih =>
    rw [binChars_eq]
    by_cases h2 : n < 2
    · simp only [if_pos h2, List.length_singleton]
      omega
    · simp only [if_neg h2, List.length_append, List.length_singleton]
      have h3 := ih (n / 2) (by omega)
      rw [pow_succ]
      omega

theorem binChars_length_le (n w : Nat) (hw : 1 ≤ w) (h : n < 2 ^ w) :
    (binChars n).length ≤ w := by
  induction n using Nat.strong_induction_on generalizing w with
  | _ n ih =>
    rw [binChars_eq]
    by_cases h2 : n < 2
    · simpa [h2] using hw
    · simp only [if_neg h2, List.length_append, List.length_singleton]
      have hw2 : 2 ≤ w := by
        by_contra hc
        have : w = 1 := by omega
        subst this
        omega
      have hdiv : n / 2 < 2 ^ (w - 1) := by
        have : 2 ^ w = 2 * 2 ^ (w - 1) := by
          rw [← pow_succ']
          congr 1
          omega
        omega
      have := ih (n / 2) (by omega) (w - 1) (by omega) hdiv
      omega

theorem charVal_digitChar (d : Nat) (h : d < 2) : charVal (Nat.digitChar d) = d := by
  interval_cases d <;> decide

theorem binChars_getD (n : Nat) : ∀ i, i < (binChars n).length →
    charVal ((binChars n).getD i '0')
      = n / 2 ^ ((binChars n).length - 1 - i) % 2 := by
  induction n using Nat.strong_induction_on with
  | _ n ih =>
    intro i hi
    rw [binChars_eq] at hi ⊢
    by_cases h2 : n < 2
    · simp only [if_pos h2, List.length_singleton] at hi ⊢
      have : i = 0 := by omega
      subst this
      simpa using (charVal_digitChar n h2).trans (by omega)
    · simp only [if_neg h2, List.length_append, List.length_singleton] at hi ⊢
      by_cases hcase : i < (binChars (n / 2)).length
      · rw [List.getD_eq_getElem?_getD, List.getElem?_append, if_pos hcase,
          ← List.getD_eq_getElem?_getD]
        rw [ih (n / 2) (by omega) i hcase]
        have hexp : (binChars (n / 2)).length + 1 - 1 - i
            = ((binChars (n / 2)).length - 1 - i) + 1 := by omega
        rw [hexp, pow_succ', ← Nat.div_div_eq_div_mul]
      · have hieq : i = (binChars (n / 2)).length := by omega
        subst hieq
        rw [List.getD_eq_getElem?_getD, List.getElem?_append_right (le_refl _),
          ← List.getD_eq_getElem?_getD]
        simp only [Nat.sub_self, List.getD_cons_zero]
        rw [charVal_digitChar (n % 2) (by omega)]
        have hexp : (binChars (n / 2)).length + 1 - 1 - (binChars (n / 2)).length = 0 := by
          omega
        rw [hexp, pow_zero, Nat.div_one]

theorem binChars_mem (n : Nat) : ∀ c ∈ binChars n, c = '0' ∨ c = '1' := by
  induction n using Nat.strong_induction_on with
  | _ n ih =>
    intro c hc
    rw [binChars_eq] at hc
    by_cases h2 : n < 2
    · simp only [if_pos h2, List.mem_singleton] at hc
      subst hc
      interval_cases n <;> simp [Nat.digitChar]
    · simp only [if_neg h2, List.mem_append, List.mem_singleton] at hc
      rcases hc with hc | hc
      · exact ih (n / 2) (by omega) c hc
      · subst hc
        have : n % 2 < 2 := by omega
        interval_cases h : (n % 2) <;> simp_all [Nat.digitChar]

theorem pyBinFmtN_length (n w : Nat) :
    (pyBinFmtN n w).length = max w (binChars n).length := by
  simp only [pyBinFmtN, List.length_append, List.length_replicate]
  omega

theorem pyBinFmtN_getD (n w : Nat) : ∀ i, i < (pyBinFmtN n w).length →
    charVal ((pyBinFmtN n w).getD i '0')
      = n / 2 ^ ((pyBinFmtN n w).length - 1 - i) % 2 := by
  intro i hi
  have hlen := pyBinFmtN_length n w
  have hLpos := binChars_length_pos n
  rw [hlen] at hi ⊢
  by_cases hcase : i < w - (binChars n).length
  · have hget : (pyBinFmtN n w).getD i '0' = '0' := by
      unfold pyBinFmtN
      rw [List.getD_eq_getElem?_getD, List.getElem?_append,
        if_pos (by simpa using hcase)]
      simp [List.getElem?_replicate, hcase]
    rw [hget]
    have hbig : (binChars n).length ≤ max w (binChars n).length - 1 - i := by omega
    have hdiv : n / 2 ^ (max w (binChars n).length - 1 - i) = 0 :=
      Nat.div_eq_of_lt (lt_of_lt_of_le (lt_two_pow_binChars n)
        (Nat.pow_le_pow_right (by omega) hbig))
    rw [hdiv]
    decide
  · have hget : (pyBinFmtN n w).getD i '0'
        = (binChars n).getD (i - (w - (binChars n).length)) '0' := by
      unfold pyBinFmtN
      rw [List.getD_eq_getElem?_getD,
        List.getElem?_append_right (by simpa using hcase),
        ← List.getD_eq_getElem?_getD]
      simp
    rw [hget, binChars_getD n _ (by omega)]
    have hexp : (binChars n).length - 1 - (i - (w - (binChars n).length))
        = max w (binChars n).length - 1 - i := by omega
    rw [hexp]

theorem pyBinFmtN_mem (n w : Nat) : ∀ c ∈ pyBinFmtN n w, c = '0' ∨ c = '1' := by
  intro c hc
  unfold pyBinFmtN at hc
  rcases List.mem_append.mp hc with hc | hc
  · exact Or.inl (List.eq_of_mem_replicate hc)
  · exact binChars_mem n c hc

/-! ### Writing fields into the 128-bit array -/

theorem foldl_set_length (g pos : Nat → Nat) :
    ∀ (l : List Nat) (cfg : List Nat),
      (l.foldl (fun c i => c.set (pos i) (g i)) cfg).length = cfg.length := by
  intro l
  induction l with
  | nil => intro cfg; rfl
  | cons a l ih => intro cfg; rw [List.foldl_cons, ih, List.length_set]

theorem foldl_set_getD_ne (g pos : Nat → Nat) (p : Nat) :
    ∀ (l : List Nat) (cfg : List Nat), (∀ i ∈ l, pos i ≠ p) →
      (l.foldl (fun c i => c.set (pos i) (g i)) cfg).getD p 0 = cfg.getD p 0 := by
  intro l
  induction l with
  | nil => intro cfg _; rfl
  | cons a l ih =>
    intro cfg h
    rw [List.foldl_cons, ih _ (fun i hi => h i (List.mem_cons_of_mem a hi)),
      List.getD_eq_getElem?_getD,
      List.getElem?_set_ne (h a (List.mem_cons_self a l)),
      ← List.getD_eq_getElem?_getD]

theorem range_foldl_set_getD (g : Nat → Nat) (start : Nat) :
    ∀ (w : Nat) (cfg : List Nat), w ≤ start + 1 → start < cfg.length →
      ∀ i, i < w →
      ((List.range w).foldl (fun c j => c.set (start - j) (g j)) cfg).getD
        (start - i) 0 = g i := by
  intro w
  induction w with
  | zero => intro cfg _ _ i hi; omega
  | succ w ih =>
    intro cfg hw hlen i hi
    rw [List.range_succ, List.foldl_append, List.foldl_cons, List.foldl_nil]
    by_cases hiw : i = w
    · subst hiw
      rw [List.getD_eq_getElem?_getD, List.getElem?_set_self]
      · rfl
      · rw [foldl_set_length]
        omega
    · have hne : start - w ≠ start - i := by omega
      rw [List.getD_eq_getElem?_getD, List.getElem?_set_ne hne,
        ← List.getD_eq_getElem?_getD]
      exact ih cfg (by omega) hlen i (by omega)

theorem writeField_length (cfg : List Nat) (f : FieldSpec) (v : Nat) :
    (writeField cfg f v).length = cfg.length := by
  unfold writeField
  split
  · exact List.length_set ..
  · exact foldl_set_length ..

theorem writeField_getD_ne (cfg : List Nat) (f : FieldSpec) (v p : Nat)
    (hwf : wfField f) (hp : ¬ inField f p) :
    (writeField cfg f v).getD p 0 = cfg.getD p 0 := by
  obtain ⟨hw1, hw2, _⟩ := hwf
  unfold writeField
  split
  · have hne : f.bit_offset ≠ p := by
      intro hpe
      exact hp ⟨by omega, by omega⟩
    rw [List.getD_eq_getElem?_getD, List.getElem?_set_ne hne,
      ← List.getD_eq_getElem?_getD]
  · apply foldl_set_getD_ne
    intro i hi hip
    rw [List.mem_range] at hi
    exact hp ⟨by omega, by omega⟩

theorem writeField_getD (cfg : List Nat) (f : FieldSpec) (v i : Nat)
    (hwf : wfField f) (hi : i < f.width) (hlen : f.bit_offset < cfg.length) :
    (writeField cfg f v).getD (f.bit_offset - i) 0 = fieldDigit f v i := by
  obtain ⟨hw1, hw2, _⟩ := hwf
  unfold writeField fieldDigit
  split
  · have hi0 : i = 0 := by omega
    subst hi0
    rw [Nat.sub_zero, List.getD_eq_getElem?_getD, List.getElem?_set_self hlen]
    simp
  · exact range_foldl_set_getD _ _ _ _ hw2 hlen i hi

theorem fields_foldl_length (d : FieldValues) :
    ∀ (l : List FieldSpec) (cfg : List Nat),
      (l.foldl (fun c f => writeField c f ((d f.name).getD 0)) cfg).length
        = cfg.length := by
  intro l
  induction l with
  | nil => intro cfg; rfl
  | cons f l ih => intro cfg; rw [List.foldl_cons, ih, writeField_length]

theorem fields_foldl_getD_ne (d : FieldValues) (p : Nat) :
    ∀ (l : List FieldSpec) (cfg : List Nat),
      (∀ f ∈ l, wfField f) → (∀ f ∈ l, ¬ inField f p) →
      (l.foldl (fun c f => writeField c f ((d f.name).getD 0)) cfg).getD p 0
        = cfg.getD p 0 := by
  intro l
  induction l with
  | nil => intro cfg _ _; rfl
  | cons f l ih =>
    intro cfg hwf hp
    rw [List.foldl_cons,
      ih _ (fun g hg => hwf g (List.mem_cons_of_mem f hg))
        (fun g hg => hp g (List.mem_cons_of_mem f hg)),
      writeField_getD_ne _ _ _ _ (hwf f (List.mem_cons_self f l))
        (hp f (List.mem_cons_self f l))]

theorem fields_foldl_getD (d : FieldValues) :
    ∀ (l : List FieldSpec) (cfg : List Nat) (f : FieldSpec), f ∈ l →
      l.Pairwise rangesDisjoint → (∀ g ∈ l, wfField g) → cfg.length = 128 →
      ∀ i, i < f.width →
      (l.foldl (fun c g => writeField c g ((d g.name).getD 0)) cfg).getD
          (f.bit_offset - i) 0
        = fieldDigit f ((d f.name).getD 0) i := by
  intro l
  induction l with
  | nil => intro cfg f hf; exact absurd hf (List.not_mem_nil f)
  | cons g l ih =>
    intro cfg f hf hpw hwf hlen i hi
    rw [List.pairwise_cons] at hpw
    rw [List.foldl_cons]
    rcases List.mem_cons.mp hf with hfg | hf
    · subst hfg
      have hwff := hwf f (List.mem_cons_self f l)
      obtain ⟨hw1, hw2, hw3⟩ := hwff
      have hin : inField f (f.bit_offset - i) := ⟨by omega, by omega⟩
      rw [fields_foldl_getD_ne d _ l _
        (fun g hg => hwf g (List.mem_cons_of_mem f hg))
        (fun g hg => by
          have hdisj := hpw.1 g hg
          intro hinp
          obtain ⟨ha, hb⟩ := hinp
          obtain ⟨hc, he⟩ := hin
          rcases hdisj with hdisj | hdisj <;> omega)]
      exact writeField_getD _ _ _ _ ⟨hw1, hw2, hw3⟩ hi (by omega)
    · exact ih _ f hf hpw.2 (fun g hg => hwf g (List.mem_cons_of_mem _ hg))
        (by rw [writeField_length]; exact hlen) i hi

/-! ### Facts about the concrete catalog, checked by evaluation -/

set_option maxRecDepth 100000 in
theorem catalog_wf : ∀ f ∈ catalog, wfField f := by decide

set_option maxRecDepth 100000 in
theorem catalog_pairwise : catalog.Pairwise rangesDisjoint := by decide

set_option maxRecDepth 100000 in
theorem catalog_cover :
    ∀ p, p < 128 → (catalog.countP fun f => decide (inField f p)) = 1 := by decide

set_option maxRecDepth 100000 in
theorem catalog_names_nodup : (catalog.map FieldSpec.name).Nodup := by decide

theorem assignCfg_length (d : FieldValues) : (assignCfg d).length = 128 := by
  unfold assignCfg
  rw [fields_foldl_length, List.length_replicate]

theorem assignCfg_getD (d : FieldValues) (f : FieldSpec) (hf : f ∈ catalog)
    (i : Nat) (hi : i < f.width) :
    (assignCfg d).getD (f.bit_offset - i) 0 = fieldDigit f ((d f.name).getD 0) i :=
  fields_foldl_getD d catalog _ f hf catalog_pairwise catalog_wf
    (List.length_replicate ..) i hi

theorem fieldDigit_le_one (f : FieldSpec) (v i : Nat)
    (h1 : f.width = 1 → v ≤ 1) (hi : i < f.width) : fieldDigit f v i ≤ 1 := by
  unfold fieldDigit
  split
  · exact h1 (by assumption)
  · rw [pyBinFmtN_getD v f.width i (by rw [pyBinFmtN_length]; omega)]
    omega

theorem assignCfg_le_one (d : FieldValues)
    (h1 : ∀ f ∈ catalog, f.width = 1 → (d f.name).getD 0 ≤ 1) :
    ∀ p, (assignCfg d).getD p 0 ≤ 1 := by
  intro p
  by_cases hp : p < 128
  · have hcov := catalog_cover p hp
    have hex : ∃ f ∈ catalog, decide (inField f p) = true := by
      rw [← List.countP_pos_iff]
      omega
    obtain ⟨f, hf, hfp⟩ := hex
    rw [decide_eq_true_iff] at hfp
    obtain ⟨ha, hb⟩ := hfp
    have hwff := catalog_wf f hf
    obtain ⟨hw1, hw2, hw3⟩ := hwff
    have hpi : p = f.bit_offset - (f.bit_offset - p) := by omega
    rw [hpi, assignCfg_getD d f hf _ (by omega)]
    exact fieldDigit_le_one f _ _ (fun hwe => by
      have := h1 f hf hwe
      omega) (by omega)
  · rw [List.getD_eq_getElem?_getD, List.getElem?_eq_none
      (by rw [assignCfg_length]; omega)]
    simp

/-! ### MSB-first bit sequences and their numeric value -/

/-- Numeric value of a bit sequence, most significant bit first. -/
def bitsVal (l : List Nat) : Nat := l.foldl (fun a b => 2 * a + b) 0

theorem bitsVal_foldl_acc : ∀ (l : List Nat) (a : Nat),
    l.foldl (fun a b => 2 * a + b) a = a * 2 ^ l.length + bitsVal l := by
  intro l
  induction l with
  | nil => intro a; simp [bitsVal]
  | cons b l ih =>
    intro a
    show l.foldl _ (2 * a + b) = a * 2 ^ (b :: l).length + bitsVal (b :: l)
    rw [ih (2 * a + b)]
    show _ = a * 2 ^ (l.length + 1) + l.foldl _ (2 * 0 + b)
    rw [ih (2 * 0 + b)]
    ring

theorem bitsVal_cons (b : Nat) (l : List Nat) :
    bitsVal (b :: l) = b * 2 ^ l.length + bitsVal l := by
  show l.foldl _ (2 * 0 + b) = _
  rw [bitsVal_foldl_acc]
  ring

theorem bitsVal_append_one (l : List Nat) (b : Nat) :
    bitsVal (l ++ [b]) = 2 * bitsVal l + b := by
  unfold bitsVal
  rw [List.foldl_append]
  rfl

theorem bitsVal_lt (l : List Nat) (h : ∀ b ∈ l, b ≤ 1) :
    bitsVal l < 2 ^ l.length := by
  induction l with
  | nil => decide
  | cons b l ih =>
    rw [bitsVal_cons]
    have hb := h b (List.mem_cons_self b l)
    have hl := ih (fun x hx => h x (List.mem_cons_of_mem b hx))
    have hbe : b * 2 ^ l.length ≤ 2 ^ l.length := by
      calc b * 2 ^ l.length ≤ 1 * 2 ^ l.length := Nat.mul_le_mul_right _ hb
        _ = 2 ^ l.length := Nat.one_mul _
    simp only [List.length_cons, pow_succ]
    omega

theorem bitsVal_getD (l : List Nat) (h : ∀ b ∈ l, b ≤ 1) :
    ∀ i, i < l.length → bitsVal l / 2 ^ (l.length - 1 - i) % 2 = l.getD i 0 := by
  induction l with
  | nil => intro i hi; simp at hi
  | cons b l ih =>
    intro i hi
    rw [bitsVal_cons]
    have hb := h b (List.mem_cons_self b l)
    have hlt := bitsVal_lt l (fun x hx => h x (List.mem_cons_of_mem b hx))
    cases i with
    | zero =>
      simp only [List.length_cons, Nat.add_sub_cancel, Nat.sub_zero,
        List.getD_cons_zero]
      rw [Nat.mul_comm, Nat.mul_add_div (Nat.pos_pow_of_pos l.length (by omega)),
        Nat.div_eq_of_lt hlt]
      omega
    | succ j =>
      simp only [List.length_cons, List.getD_cons_succ]
      have hj : j < l.length := by simpa using hi
      have he : l.length + 1 - 1 - (j + 1) = l.length - 1 - j := by omega
      rw [he]
      have hdec : b * 2 ^ l.length
          = 2 ^ (l.length - 1 - j) * (b * 2 ^ (j + 1)) := by
        rw [Nat.mul_comm (2 ^ (l.length - 1 - j)) _, Nat.mul_assoc, ← pow_add]
        congr 2
        omega
      rw [hdec, Nat.add_comm,
        Nat.add_mul_div_left _ _ (Nat.pos_pow_of_pos _ (by omega))]
      have heven : b * 2 ^ (j + 1) % 2 = 0 := by
        rw [pow_succ, ← Nat.mul_assoc]
        exact Nat.mul_mod_left _ 2
      rw [← ih (fun x hx => h x (List.mem_cons_of_mem b hx)) j hj]
      omega

theorem bitsVal_digits (L v : Nat) (hv : v < 2 ^ L) :
    ∀ w, w ≤ L →
      bitsVal ((List.range w).map fun i => v / 2 ^ (L - 1 - i) % 2)
        = v / 2 ^ (L - w) := by
  intro w
  induction w with
  | zero =>
    intro _
    show bitsVal [] = v / 2 ^ L
    rw [Nat.div_eq_of_lt hv]
    rfl
  | succ w ih =>
    intro hw
    rw [List.range_succ, List.map_append, List.map_singleton, bitsVal_append_one,
      ih (by omega)]
    have hq : v / 2 ^ (L - w) = v / 2 ^ (L - (w + 1)) / 2 := by
      rw [Nat.div_div_eq_div_mul, ← pow_succ]
      congr 2
      omega
    rw [hq]
    have he : L - 1 - w = L - (w + 1) := by omega
    rw [he]
    omega

/-! ### Packing the 128-bit array into bytes -/

theorem shiftLeft_lor_bit (acc b : Nat) (hb : b ≤ 1) :
    (acc <<< 1) ||| b = 2 * acc + b := by
  rcases Nat.le_one_iff_eq_zero_or_eq_one.mp hb with hb0 | hb1
  · subst hb0
    rw [Nat.shiftLeft_eq]
    simp [Nat.mul_comm]
  · subst hb1
    apply Nat.eq_of_testBit_eq
    intro i
    cases i with
    | zero =>
      rw [Nat.testBit_lor]
      simp only [Nat.testBit_zero, Nat.shiftLeft_eq]
      have h1 : acc * 2 ^ 1 % 2 = 0 := by omega
      have h2 : (2 * acc + 1) % 2 = 1 := by omega
      simp [h1, h2]
    | succ j =>
      rw [Nat.testBit_lor, Nat.testBit_succ, Nat.testBit_succ, Nat.testBit_succ]
      have h1 : acc <<< 1 / 2 = acc := by
        rw [Nat.shiftLeft_eq]
        omega
      have h2 : (2 * acc + 1) / 2 = acc := by omega
      have h3 : (1 : Nat) / 2 = 0 := by omega
      rw [h1, h2, h3]
      simp

theorem packByte_eq_bitsVal (cfg : List Nat) (k : Nat)
    (h : ∀ b ∈ cfg, b ≤ 1) :
    packByte cfg k
      = bitsVal ((List.range 8).map fun j => cfg.getD (127 - (k * 8 + j)) 0) := by
  unfold packByte bitsVal
  rw [List.foldl_map]
  apply List.foldl_ext
  intro a x _
  apply shiftLeft_lor_bit
  by_cases hx : 127 - (k * 8 + x) < cfg.length
  · rw [List.getD_eq_getElem _ _ hx]
    exact h _ (List.getElem_mem ..)
  · rw [List.getD_eq_default _ _ (by omega)]
    omega

theorem regBit_packBytes (cfg : List Nat) (p : Nat)
    (hlen : cfg.length = 128) (hle : ∀ b ∈ cfg, b ≤ 1) (hp : p < 128) :
    regBit (packBytes cfg) p = cfg.getD p 0 := by
  unfold regBit packBytes
  have hk : 15 - p / 8 < 16 := by omega
  have hmap : ((List.range 16).map (packByte cfg)).getD (15 - p / 8) 0
      = packByte cfg (15 - p / 8) := by
    rw [List.getD_eq_getElem _ _ (by simpa using hk)]
    simp
  rw [hmap, packByte_eq_bitsVal cfg _ hle]
  have hbits : ∀ b ∈ (List.range 8).map
      (fun j => cfg.getD (127 - ((15 - p / 8) * 8 + j)) 0), b ≤ 1 := by
    intro b hb
    rw [List.mem_map] at hb
    obtain ⟨j, _, rfl⟩ := hb
    by_cases hx : 127 - ((15 - p / 8) * 8 + j) < cfg.length
    · rw [List.getD_eq_getElem _ _ hx]
      exact hle _ (List.getElem_mem ..)
    · rw [List.getD_eq_default _ _ (by omega)]
      omega
  have hlen8 : ((List.range 8).map
      (fun j => cfg.getD (127 - ((15 - p / 8) * 8 + j)) 0)).length = 8 := by
    simp
  have hidx : 7 - p % 8 < 8 := by omega
  have := bitsVal_getD _ hbits (7 - p % 8) (by omega)
  rw [hlen8] at this
  have he : 8 - 1 - (7 - p % 8) = p % 8 := by omega
  rw [he] at this
  rw [this]
  have hget : ((List.range 8).map
      (fun j => cfg.getD (127 - ((15 - p / 8) * 8 + j)) 0)).getD (7 - p % 8) 0
      = cfg.getD (127 - ((15 - p / 8) * 8 + (7 - p % 8))) 0 := by
    rw [List.getD_eq_getElem _ _ (by simpa using hidx)]
    simp
  rw [hget]
  congr 1
  omega

/-! ### Extraction composed with assignment -/

theorem assignCfg_mem_le_one (d : FieldValues)
    (h1 : ∀ f ∈ catalog, f.width = 1 → (d f.name).getD 0 ≤ 1) :
    ∀ b ∈ assignCfg d, b ≤ 1 := by
  intro b hb
  obtain ⟨p, hp, hpe⟩ := List.mem_iff_getElem.mp hb
  have := assignCfg_le_one d h1 p
  rwa [List.getD_eq_getElem _ _ hp, hpe] at this

theorem extractField_eq_bitsVal (bytes : List Nat) (f : FieldSpec) :
    extractField bytes f
      = bitsVal ((List.range f.width).map fun i => regBit bytes (f.bit_offset - i)) := by
  unfold extractField bitsVal
  rw [List.foldl_map]

theorem extractField_assign (d : FieldValues) (f : FieldSpec) (hf : f ∈ catalog)
    (h1 : ∀ g ∈ catalog, g.width = 1 → (d g.name).getD 0 ≤ 1) :
    extractField (RegisterAssignment d) f
      = bitsVal ((List.range f.width).map
          fun i => fieldDigit f ((d f.name).getD 0) i) := by
  rw [extractField_eq_bitsVal]
  congr 1
  apply List.map_congr_left
  intro i hi
  rw [List.mem_range] at hi
  obtain ⟨hw1, hw2, hw3⟩ := catalog_wf f hf
  unfold RegisterAssignment
  rw [regBit_packBytes _ _ (assignCfg_length d) (assignCfg_mem_le_one d h1)
    (by omega)]
  exact assignCfg_getD d f hf i hi

theorem fieldDigit_formula (f : FieldSpec) (v : Nat) (hwf : wfField f)
    (hv : v ≤ maxValue f) :
    ∀ i, i < f.width → fieldDigit f v i = v / 2 ^ (f.width - 1 - i) % 2 := by
  intro i hi
  obtain ⟨hw1, _, _⟩ := hwf
  have hvlt : v < 2 ^ f.width := by
    unfold maxValue at hv
    have : 0 < 2 ^ f.width := Nat.pos_pow_of_pos _ (by omega)
    omega
  unfold fieldDigit
  split
  · have hi0 : i = 0 := by omega
    subst hi0
    rename_i hw
    rw [hw] at hvlt ⊢
    have hvlt2 : v < 2 := by simpa using hvlt
    simp only [Nat.sub_zero, Nat.sub_self, pow_zero, Nat.div_one]
    omega
  · have hlen : (pyBinFmtN v f.width).length = f.width := by
      rw [pyBinFmtN_length]
      have := binChars_length_le v f.width hw1 hvlt
      omega
    rw [pyBinFmtN_getD v f.width i (by omega), hlen]

theorem extractField_roundtrip (d : FieldValues) (f : FieldSpec)
    (hf : f ∈ catalog)
    (hin : ∀ g ∈ catalog, (d g.name).getD 0 ≤ maxValue g) :
    extractField (RegisterAssignment d) f = (d f.name).getD 0 := by
  have h1 : ∀ g ∈ catalog, g.width = 1 → (d g.name).getD 0 ≤ 1 := by
    intro g hg hw
    have := hin g hg
    unfold maxValue at this
    rw [hw] at this
    omega
  have hwf := catalog_wf f hf
  obtain ⟨hw1, _, _⟩ := hwf
  have hvlt : (d f.name).getD 0 < 2 ^ f.width := by
    have := hin f hf
    unfold maxValue at this
    have hp : 0 < 2 ^ f.width := Nat.pos_pow_of_pos _ (by omega)
    omega
  rw [extractField_assign d f hf h1,
    List.map_congr_left (fun i hi =>
      fieldDigit_formula f _ (catalog_wf f hf) (hin f hf) i (List.mem_range.mp hi)),
    bitsVal_digits f.width _ hvlt f.width (le_refl _)]
  simp

theorem catalog_name_inj (f g : FieldSpec) (hf : f ∈ catalog)
    (hg : g ∈ catalog) (hne : f ≠ g) : f.name ≠ g.name := by
  intro heq
  exact hne (List.inj_on_of_nodup_map catalog_names_nodup hf hg heq)

theorem extractField_overflow (f : FieldSpec) (hf : f ∈ catalog)
    (hw2 : 2 ≤ f.width) (v : Nat) (hv : maxValue f < v) :
    extractField (RegisterAssignment (singleField f.name v)) f
      = v / 2 ^ ((binChars v).length - f.width) := by
  have h1 : ∀ g ∈ catalog, g.width = 1 →
      ((singleField f.name v) g.name).getD 0 ≤ 1 := by
    intro g hg hgw
    have hne : g.name ≠ f.name := by
      apply catalog_name_inj g f hg hf
      intro hgf
      rw [hgf] at hgw
      omega
    unfold singleField
    rw [if_neg hne]
    simp
  have hself : ((singleField f.name v) f.name).getD 0 = v := by
    unfold singleField
    rw [if_pos rfl]
    rfl
  obtain ⟨hw1, _, _⟩ := catalog_wf f hf
  have hvge : 2 ^ f.width ≤ v := by
    unfold maxValue at hv
    have : 0 < 2 ^ f.width := Nat.pos_pow_of_pos _ (by omega)
    omega
  have hwL : f.width < (binChars v).length := by
    by_contra hc
    have h3 : v < 2 ^ (binChars v).length := lt_two_pow_binChars v
    have h4 : (2:Nat) ^ (binChars v).length ≤ 2 ^ f.width :=
      Nat.pow_le_pow_right (by omega) (by omega)
    omega
  have hflen : (pyBinFmtN v f.width).length = (binChars v).length := by
    rw [pyBinFmtN_length]
    omega
  rw [extractField_assign _ f hf h1, hself]
  have hdig : ∀ i ∈ List.range f.width,
      fieldDigit f v i = v / 2 ^ ((binChars v).length - 1 - i) % 2 := by
    intro i hi
    rw [List.mem_range] at hi
    unfold fieldDigit
    rw [if_neg (by omega), pyBinFmtN_getD v f.width i (by omega), hflen]
  rw [List.map_congr_left hdig,
    bitsVal_digits (binChars v).length v (lt_two_pow_binChars v) f.width
      (by omega)]

/-! ### Characterizing the response loop -/

theorem strContains_empty_false (t : String) (ht : t ≠ "") :
    strContains "" t = false := by
  have htl : t.toList ≠ [] := by
    intro h
    apply ht
    cases t with
    | mk data =>
      simp only [String.toList, String.data] at h
      subst h
      rfl
  unfold strContains
  simp only [show ("" : String).toList = [] from rfl]
  simp
  exact htl

theorem ne_empty_of_strContains (l t : String) (ht : t ≠ "")
    (h : strContains l t = true) : l ≠ "" := by
  intro hl
  subst hl
  rw [strContains_empty_false t ht] at h
  exact Bool.noConfusion h

theorem serialRespond_timeout_iff (token : String) (htok : token ≠ "") :
    ∀ lines : List String,
      (serialRespond token lines = .timeout ↔
        ∀ l ∈ lines, strContains l token = false ∧ strContains l "ERROR" = false) := by
  intro lines
  induction lines with
  | nil => simp [serialRespond]
  | cons a rest ih =>
    simp only [serialRespond]
    by_cases ha : a = ""
    · subst ha
      simp only [reduceIte]
      rw [ih]
      constructor
      · intro h l hl
        rcases List.mem_cons.mp hl with rfl | hl
        · exact ⟨strContains_empty_false _ htok,
            strContains_empty_false _ (by decide)⟩
        · exact h l hl
      · intro h l hl
        exact h l (List.mem_cons_of_mem _ hl)
    · rw [if_neg ha]
      by_cases h1 : strContains a token = true
      · rw [if_pos h1]
        constructor
        · intro h; exact absurd h (by simp)
        · intro h
          have := (h a (List.mem_cons_self a rest)).1
          rw [h1] at this
          exact absurd this (by simp)
      · rw [if_neg h1]
        by_cases h2 : strContains a "ERROR" = true
        · rw [if_pos h2]
          constructor
          · intro h; exact absurd h (by simp)
          · intro h
            have := (h a (List.mem_cons_self a rest)).2
            rw [h2] at this
            exact absurd this (by simp)
        · rw [if_neg h2]
          rw [ih]
          constructor
          · intro h l hl
            rcases List.mem_cons.mp hl with rfl | hl
            · exact ⟨Bool.eq_false_iff.mpr h1, Bool.eq_false_iff.mpr h2⟩
            · exact h l hl
          · intro h l hl
            exact h l (List.mem_cons_of_mem _ hl)

theorem serialRespond_success_iff (token : String) (htok : token ≠ "") :
    ∀ lines : List String,
      (serialRespond token lines = .success ↔
        ∃ pre line post, lines = pre ++ line :: post
          ∧ (∀ l ∈ pre, strContains l token = false ∧ strContains l "ERROR" = false)
          ∧ strContains line token = true) := by
  intro lines
  induction lines with
  | nil =>
    constructor
    · intro h; exact absurd h (by simp [serialRespond])
    · rintro ⟨pre, line, post, h, -, -⟩
      exact absurd h (by simp)
  | cons a rest ih =>
    constructor
    · intro h
      simp only [serialRespond] at h
      by_cases ha : a = ""
      · subst ha
        simp only [reduceIte] at h
        obtain ⟨pre, line, post, hsplit, hpre, hline⟩ := ih.mp h
        exact ⟨"" :: pre, line, post, by rw [hsplit]; rfl,
          fun l hl => by
            rcases List.mem_cons.mp hl with rfl | hl
            · exact ⟨strContains_empty_false _ htok,
                strContains_empty_false _ (by decide)⟩
            · exact hpre l hl,
          hline⟩
      · rw [if_neg ha] at h
        by_cases h1 : strContains a token = true
        · exact ⟨[], a, rest, rfl, by simp, h1⟩
        · rw [if_neg h1] at h
          by_cases h2 : strContains a "ERROR" = true
          · rw [if_pos h2] at h
            exact absurd h (by simp)
          · rw [if_neg h2] at h
            obtain ⟨pre, line, post, hsplit, hpre, hline⟩ := ih.mp h
            exact ⟨a :: pre, line, post, by rw [hsplit]; rfl,
              fun l hl => by
                rcases List.mem_cons.mp hl with rfl | hl
                · exact ⟨Bool.eq_false_iff.mpr h1, Bool.eq_false_iff.mpr h2⟩
                · exact hpre l hl,
              hline⟩
    · rintro ⟨pre, line, post, hsplit, hpre, hline⟩
      cases pre with
      | nil =>
        simp only [List.nil_append, List.cons.injEq] at hsplit
        obtain ⟨rfl, rfl⟩ := hsplit
        simp only [serialRespond]
        rw [if_neg (ne_empty_of_strContains a token htok hline), if_pos hline]
      | cons p pre =>
        simp only [List.cons_append, List.cons.injEq] at hsplit
        obtain ⟨rfl, hrest⟩ := hsplit
        have hp := hpre a (List.mem_cons_self a pre)
        have htail : serialRespond token rest = .success :=
          ih.mpr ⟨pre, line, post, hrest,
            fun l hl => hpre l (List.mem_cons_of_mem _ hl), hline⟩
        simp only [serialRespond]
        by_cases hpe : a = ""
        · rw [if_pos hpe]
          exact htail
        · rw [if_neg hpe, if_neg (by rw [hp.1]; simp),
            if_neg (by rw [hp.2]; simp)]
          exact htail

theorem serialRespond_error_iff (token : String) (htok : token ≠ "") :
    ∀ (lines : List String) (msg : String),
      (serialRespond token lines = .protocolError msg ↔
        ∃ pre post, lines = pre ++ msg :: post
          ∧ (∀ l ∈ pre, strContains l token = false ∧ strContains l "ERROR" = false)
          ∧ strContains msg token = false ∧ strContains msg "ERROR" = true) := by
  intro lines
  induction lines with
  | nil =>
    intro msg
    constructor
    · intro h; exact absurd h (by simp [serialRespond])
    · rintro ⟨pre, post, h, -, -⟩
      exact absurd h (by simp)
  | cons a rest ih =>
    intro msg
    constructor
    · intro h
      simp only [serialRespond] at h
      by_cases ha : a = ""
      · subst ha
        simp only [reduceIte] at h
        obtain ⟨pre, post, hsplit, hpre, hmsg⟩ := (ih msg).mp h
        exact ⟨"" :: pre, post, by rw [hsplit]; rfl,
          fun l hl => by
            rcases List.mem_cons.mp hl with rfl | hl
            · exact ⟨strContains_empty_false _ htok,
                strContains_empty_false _ (by decide)⟩
            · exact hpre l hl,
          hmsg⟩
      · rw [if_neg ha] at h
        by_cases h1 : strContains a token = true
        · rw [if_pos h1] at h
          exact absurd h (by simp)
        · rw [if_neg h1] at h
          by_cases h2 : strContains a "ERROR" = true
          · rw [if_pos h2] at h
            have hm : a = msg := by
              cases h
              rfl
            subst hm
            exact ⟨[], rest, rfl, by simp, Bool.eq_false_iff.mpr h1, h2⟩
          · rw [if_neg h2] at h
            obtain ⟨pre, post, hsplit, hpre, hmsg⟩ := (ih msg).mp h
            exact ⟨a :: pre, post, by rw [hsplit]; rfl,
              fun l hl => by
                rcases List.mem_cons.mp hl with rfl | hl
                · exact ⟨Bool.eq_false_iff.mpr h1, Bool.eq_false_iff.mpr h2⟩
                · exact hpre l hl,
              hmsg⟩
    · rintro ⟨pre, post, hsplit, hpre, hm1, hm2⟩
      cases pre with
      | nil =>
        simp only [List.nil_append, List.cons.injEq] at hsplit
        obtain ⟨rfl, rfl⟩ := hsplit
        simp only [serialRespond]
        rw [if_neg (ne_empty_of_strContains a "ERROR" (by decide) hm2),
          if_neg (by rw [hm1]; simp), if_pos hm2]
      | cons p pre =>
        simp only [List.cons_append, List.cons.injEq] at hsplit
        obtain ⟨rfl, hrest⟩ := hsplit
        have hp := hpre a (List.mem_cons_self a pre)
        have htail : serialRespond token rest = .protocolError msg :=
          (ih msg).mpr ⟨pre, post, hrest,
            fun l hl => hpre l (List.mem_cons_of_mem _ hl), hm1, hm2⟩
        simp only [serialRespond]
        by_cases hpe : a = ""
        · rw [if_pos hpe]
          exact htail
        · rw [if_neg hpe, if_neg (by rw [hp.1]; simp),
            if_neg (by rw [hp.2]; simp)]
          exact htail

/-! ### `assign_bits` on signed values -/

theorem assign_bitsZ_neg (cfg : List Nat) (start w : Nat) (v : Int)
    (hw : 1 ≤ w) (hv : v < 0) :
    assign_bitsZ cfg start v w = .error "ValueError" := by
  unfold assign_bitsZ pyBinFmt
  rw [if_pos hv]
  obtain ⟨u, rfl⟩ : ∃ u, w = u + 1 := ⟨w - 1, by omega⟩
  rw [List.range_succ_eq_map]
  simp only [List.foldlM_cons, List.getD_cons_zero]
  rfl

theorem pyCharInt_fmt (n w i : Nat) :
    pyCharInt ((pyBinFmtN n w).getD i '0')
      = .ok (charVal ((pyBinFmtN n w).getD i '0')) := by
  have hd : (pyBinFmtN n w).getD i '0' = '0' ∨ (pyBinFmtN n w).getD i '0' = '1' := by
    by_cases hi : i < (pyBinFmtN n w).length
    · rw [List.getD_eq_getElem _ _ hi]
      exact pyBinFmtN_mem n w _ (List.getElem_mem ..)
    · rw [List.getD_eq_default _ _ (by omega)]
      exact Or.inl rfl
  rcases hd with hd | hd <;> rw [hd] <;> rfl

theorem foldlM_charInt_ok (bits : List Char) (start : Nat) :
    ∀ (l cfg : List Nat),
      (∀ i ∈ l, pyCharInt (bits.getD i '0') = .ok (charVal (bits.getD i '0'))) →
      (List.foldlM (fun c i => do
          let d ← pyCharInt (bits.getD i '0')
          pure (c.set (start - i) d)) cfg l : Except String (List Nat))
        = .ok (l.foldl (fun c i => c.set (start - i) (charVal (bits.getD i '0'))) cfg) := by
  intro l
  induction l with
  | nil => intro cfg _; rfl
  | cons a l ih =>
    intro cfg h
    rw [List.foldlM_cons]
    simp only [h a (List.mem_cons_self a l)]
    show (List.foldlM _ (cfg.set (start - a) _) l : Except String (List Nat)) = _
    rw [ih _ (fun i hi => h i (List.mem_cons_of_mem a hi)), List.foldl_cons]

theorem assign_bitsZ_nonneg (cfg : List Nat) (start w : Nat) (v : Int)
    (hv : 0 ≤ v) :
    assign_bitsZ cfg start v w = .ok (assign_bits cfg start v.toNat w) := by
  unfold assign_bitsZ pyBinFmt assign_bits
  rw [if_neg (by omega)]
  exact foldlM_charInt_ok (pyBinFmtN v.toNat w) start (List.range w) cfg
    (fun i _ => pyCharInt_fmt v.toNat w i)

set_option maxRecDepth 1000000 in
set_option maxHeartbeats 2000000 in
theorem catalog_find : ∀ f ∈ catalog,
    (catalog.find? fun g => g.name == f.name) = some f := by decide

/-! ### The claims -/

/-- C1: the field catalog hard-coded in `RegisterAssignment` satisfies the
coverage invariant — the bit ranges `[bit_offset − width + 1, bit_offset]`
of any two distinct fields are disjoint, their union is exactly the
positions 0–127, and every such position is covered by exactly one
field (no gaps, no overlaps). -/
theorem C1_catalog_coverage :
    catalog.Pairwise rangesDisjoint
    ∧ (∀ p, p < 128 ↔ ∃ f ∈ catalog, inField f p)
    ∧ (∀ p, p < 128 → (catalog.countP fun f => decide (inField f p)) = 1) := by
  refine ⟨catalog_pairwise, fun p => ⟨fun hp => ?_, fun h => ?_⟩, catalog_cover⟩
  · have hc := catalog_cover p hp
    have hpos : 0 < catalog.countP fun f => decide (inField f p) := by omega
    obtain ⟨f, hf, hfp⟩ := List.countP_pos_iff.mp hpos
    exact ⟨f, hf, of_decide_eq_true hfp⟩
  · obtain ⟨f, hf, hfp⟩ := h
    obtain ⟨-, -, h3⟩ := catalog_wf f hf
    obtain ⟨h4, -⟩ := hfp
    omega

/-- Witness for C1 at the concrete positions 127 and 0. -/
theorem C1_catalog_coverage_witness :
    (∃ f ∈ catalog, inField f 127)
    ∧ (catalog.countP fun f => decide (inField f 0)) = 1 :=
  ⟨(C1_catalog_coverage.2.1 127).mp (by omega),
   C1_catalog_coverage.2.2 0 (by omega)⟩

/-- C2: round-trip law — for every value dictionary whose entries all lie
within their field's `max_value`, decoding the 16 bytes produced by
`RegisterAssignment` (extracting each field's `width` bits at its
`bit_offset`, MSB first) returns the normalized input: every catalog field
decodes to exactly the supplied value, with 0 for absent keys.  The
decoder is modelled from the spec, the repository having none. -/
theorem C2_roundtrip (d : FieldValues)
    (hin : ∀ g ∈ catalog, (d g.name).getD 0 ≤ maxValue g) :
    ∀ f ∈ catalog,
      decode (RegisterAssignment d) f.name = some ((d f.name).getD 0) := by
  intro f hf
  unfold decode
  rw [catalog_find f hf]
  show some (extractField (RegisterAssignment d) f) = _
  rw [extractField_roundtrip d f hf hin]

/-- Witness for C2: a dictionary holding `_PI_CAP_CTRL_ = 31` (its
`max_value`) decodes back to 31. -/
theorem C2_roundtrip_witness :
    decode (RegisterAssignment (singleField "_PI_CAP_CTRL_" 31))
      "_PI_CAP_CTRL_" = some 31 := by
  have h := C2_roundtrip (singleField "_PI_CAP_CTRL_" 31) (by decide)
    ⟨"_PI_CAP_CTRL_", 108, 5⟩ (by decide)
  simpa using h

set_option maxRecDepth 1000000 in
set_option maxHeartbeats 2000000 in
/-- C3 counterexample: with `_TEST_ADD_` (width 4, `max_value` 15) set to
16 the claim predicts field bits `16 mod 2^4 = 0`, but the code formats 16
as the five characters `10000` and writes only the first four, so the
field holds binary `1000` (value 8) and output byte 14 is 1, not 0. -/
theorem C3_counterexample :
    (⟨"_TEST_ADD_", 8, 4⟩ : FieldSpec) ∈ catalog
    ∧ maxValue ⟨"_TEST_ADD_", 8, 4⟩ < 16
    ∧ extractField (RegisterAssignment overflowC3) ⟨"_TEST_ADD_", 8, 4⟩ = 8
    ∧ (RegisterAssignment overflowC3).getD 14 0 = 1
    ∧ (16 : Nat) % 2 ^ 4 = 0
    ∧ (8 : Nat) ≠ 0 := by
  exact ⟨by decide, by decide, by decide, by decide, by decide, by decide⟩

/-- C3 (amended): in the default mode, for every multi-bit field and every
value `v > max_value`, `assign` writes the *most significant* `width` bits
of `v`'s binary representation into the field's positions (the fixed-width
binary format pads to a minimum width but never truncates, and the loop
reads the first `width` characters), so the field holds
`v / 2^(bitlen(v) − width)`; in particular `max_value + 1` leaves the
field holding `2^(width − 1)`, not 0. -/
theorem C3_amended (f : FieldSpec) (hf : f ∈ catalog) (hw : 2 ≤ f.width)
    (v : Nat) (hv : maxValue f < v) :
    extractField (RegisterAssignment (singleField f.name v)) f
      = v / 2 ^ ((binChars v).length - f.width)
    ∧ extractField (RegisterAssignment (singleField f.name (maxValue f + 1))) f
      = 2 ^ (f.width - 1) := by
  obtain ⟨hw1, -, -⟩ := catalog_wf f hf
  refine ⟨extractField_overflow f hf hw v hv, ?_⟩
  have hpos : 0 < 2 ^ f.width := Nat.pos_pow_of_pos _ (by omega)
  have h1 : maxValue f + 1 = 2 ^ f.width := by
    unfold maxValue
    omega
  have hpos1 : 0 < 2 ^ (f.width + 1) := Nat.pos_pow_of_pos _ (by omega)
  have hL1 : (binChars (2 ^ f.width)).length ≤ f.width + 1 := by
    apply binChars_length_le _ _ (by omega)
    rw [pow_succ]
    omega
  have hL2 : f.width < (binChars (2 ^ f.width)).length := by
    by_contra hc
    have h3 := lt_two_pow_binChars (2 ^ f.width)
    have h4 : (2:Nat) ^ (binChars (2 ^ f.width)).length ≤ 2 ^ f.width :=
      Nat.pow_le_pow_right (by omega) (by omega)
    omega
  have hL : (binChars (2 ^ f.width)).length = f.width + 1 := by omega
  rw [h1, extractField_overflow f hf hw _ (by omega), hL]
  have he : f.width + 1 - f.width = 1 := by omega
  rw [he, pow_one]
  have hsplit : (2:Nat) ^ f.width = 2 ^ (f.width - 1) * 2 := by
    rw [← pow_succ]
    congr 1
    omega
  rw [hsplit, Nat.mul_div_cancel _ (by omega)]

set_option maxRecDepth 1000000 in
set_option maxHeartbeats 2000000 in
/-- Witness for C3 (amended) at `_TEST_ADD_` with the overflowing value
17 (binary `10001`, five characters): the field keeps the top four bits. -/
theorem C3_amended_witness :
    extractField (RegisterAssignment (singleField "_TEST_ADD_" 17))
        ⟨"_TEST_ADD_", 8, 4⟩
      = 17 / 2 ^ ((binChars 17).length - 4)
    ∧ extractField (RegisterAssignment (singleField "_TEST_ADD_" 16))
        ⟨"_TEST_ADD_", 8, 4⟩
      = 2 ^ 3 :=
  C3_amended ⟨"_TEST_ADD_", 8, 4⟩ (by decide) (by decide) 17 (by decide)

set_option maxRecDepth 1000000 in
set_option maxHeartbeats 2000000 in
/-- C4 counterexample: on `{_TEST_ADD_: 5, _TMUX_SEL_: 10}` the last
output byte is `0b10110100 = 0xB4 = 180`, not `0x5A`, and bits 11 down to
8 of the register all hold 0, not `0101`. -/
theorem C4_counterexample :
    (RegisterAssignment scenarioC).getD 15 0 = 180
    ∧ (180 : Nat) ≠ 0x5A
    ∧ regBit (RegisterAssignment scenarioC) 11 = 0
    ∧ regBit (RegisterAssignment scenarioC) 10 = 0
    ∧ regBit (RegisterAssignment scenarioC) 9 = 0
    ∧ regBit (RegisterAssignment scenarioC) 8 = 0 := by
  exact ⟨by decide, by decide, by decide, by decide, by decide, by decide⟩

set_option maxRecDepth 1000000 in
set_option maxHeartbeats 2000000 in
/-- C4 (amended): scenario C — `_TEST_ADD_ = 5` occupies bits 8 down to 5
(holding `0101`) and `_TMUX_SEL_ = 10` bits 4 down to 1 (holding `1010`),
bit 0 (`_SPARE_`) is 0, so byte 15 equals `0b10110100 = 0xB4` and every
other byte is zero. -/
theorem C4_amended :
    RegisterAssignment scenarioC = List.replicate 15 0 ++ [180]
    ∧ regBit (RegisterAssignment scenarioC) 8 = 0
    ∧ regBit (RegisterAssignment scenarioC) 7 = 1
    ∧ regBit (RegisterAssignment scenarioC) 6 = 0
    ∧ regBit (RegisterAssignment scenarioC) 5 = 1
    ∧ regBit (RegisterAssignment scenarioC) 4 = 1
    ∧ regBit (RegisterAssignment scenarioC) 3 = 0
    ∧ regBit (RegisterAssignment scenarioC) 2 = 1
    ∧ regBit (RegisterAssignment scenarioC) 1 = 0
    ∧ regBit (RegisterAssignment scenarioC) 0 = 0 := by
  exact ⟨by decide, by decide, by decide, by decide, by decide, by decide,
    by decide, by decide, by decide, by decide⟩

set_option maxRecDepth 1000000 in
set_option maxHeartbeats 2000000 in
/-- C5: keys that name no catalog field never affect the output — any two
dictionaries agreeing on every catalog name produce identical bytes — and
absent fields default to 0: the empty dictionary yields 16 zero bytes. -/
theorem C5_defaults :
    (∀ d dd : FieldValues, (∀ f ∈ catalog, d f.name = dd f.name) →
      RegisterAssignment d = RegisterAssignment dd)
    ∧ RegisterAssignment (fun _ => none) = List.replicate 16 0 := by
  constructor
  · intro d dd h
    have hgen : ∀ (l : List FieldSpec) (cfg : List Nat),
        (∀ f ∈ l, d f.name = dd f.name) →
        l.foldl (fun c f => writeField c f ((d f.name).getD 0)) cfg
          = l.foldl (fun c f => writeField c f ((dd f.name).getD 0)) cfg := by
      intro l
      induction l with
      | nil => intro cfg _; rfl
      | cons a l ih =>
        intro cfg hal
        rw [List.foldl_cons, List.foldl_cons, hal a (List.mem_cons_self a l),
          ih _ (fun f hf => hal f (List.mem_cons_of_mem a hf))]
    have hcfg : assignCfg d = assignCfg dd := hgen catalog _ h
    unfold RegisterAssignment
    rw [hcfg]
  · decide

set_option maxRecDepth 1000000 in
set_option maxHeartbeats 2000000 in
/-- Witness for C5: a dictionary whose only key is unknown produces the
same bytes as the empty dictionary. -/
theorem C5_defaults_witness :
    RegisterAssignment (fun n => if n = "NOT_A_FIELD" then some 7 else none)
      = RegisterAssignment (fun _ => none) :=
  C5_defaults.1 _ _ (by decide)

set_option maxRecDepth 1000000 in
set_option maxHeartbeats 2000000 in
/-- C6: scenario B — `{_CSH_EN_8_: 1}` alone sets bit 127, the register
MSB, so byte 0 is `0b10000000 = 0x80 = 128` and the 15 other bytes are
zero. -/
theorem C6_scenarioB :
    RegisterAssignment scenarioB = 128 :: List.replicate 15 0
    ∧ regBit (RegisterAssignment scenarioB) 127 = 1 := by
  exact ⟨by decide, by decide⟩

/-- C7: wire format — for every 16-byte register `Data`,
`serial_transfer_data` writes exactly the 18-byte frame `0x3C` (`<`), the
16 data bytes in order, then `0x3E` (`>`); `serial_reset` writes exactly
the single byte `0x52` (`R`). -/
theorem C7_wire_format :
    (∀ (Data : List Nat) (lines : List String), Data.length = 16 →
      (serial_transfer_data Data lines).written = 0x3C :: Data ++ [0x3E]
      ∧ ((serial_transfer_data Data lines).written).length = 18)
    ∧ (∀ lines : List String, (serial_reset lines).written = [0x52]) := by
  refine ⟨fun Data lines h => ⟨rfl, ?_⟩, fun lines => rfl⟩
  show ('<'.toNat :: Data ++ ['>'.toNat]).length = 18
  simp [h]

/-- Witness for C7 at the all-zero register. -/
theorem C7_wire_format_witness :
    (serial_transfer_data (List.replicate 16 0) []).written
      = 0x3C :: List.replicate 16 0 ++ [0x3E]
    ∧ ((serial_transfer_data (List.replicate 16 0) []).written).length = 18 :=
  C7_wire_format.1 (List.replicate 16 0) [] (by decide)

/-- C8: each protocol operation ends in exactly one of the outcomes
`success`, `protocolError msg`, `timeout`: `serial_transfer_data` succeeds
exactly when a line containing `"TRANSFER_COMPLETE"` is read with no
earlier decisive line; it reports `protocolError msg` exactly when the
first decisive line `msg` contains `"ERROR"` (and not the success token),
propagating the peer's text; and it times out exactly when no line read
before the deadline is decisive.  `serial_reset` behaves identically with
success token `"RESET_COMPLETE"`. -/
theorem C8_outcomes (Data : List Nat) (lines : List String) (msg : String) :
    ((serial_transfer_data Data lines).outcome = .success ↔
      ∃ pre line post, lines = pre ++ line :: post
        ∧ (∀ l ∈ pre, strContains l "TRANSFER_COMPLETE" = false
            ∧ strContains l "ERROR" = false)
        ∧ strContains line "TRANSFER_COMPLETE" = true)
    ∧ ((serial_transfer_data Data lines).outcome = .protocolError msg ↔
      ∃ pre post, lines = pre ++ msg :: post
        ∧ (∀ l ∈ pre, strContains l "TRANSFER_COMPLETE" = false
            ∧ strContains l "ERROR" = false)
        ∧ strContains msg "TRANSFER_COMPLETE" = false
        ∧ strContains msg "ERROR" = true)
    ∧ ((serial_transfer_data Data lines).outcome = .timeout ↔
      ∀ l ∈ lines, strContains l "TRANSFER_COMPLETE" = false
        ∧ strContains l "ERROR" = false)
    ∧ ((serial_reset lines).outcome = .success ↔
      ∃ pre line post, lines = pre ++ line :: post
        ∧ (∀ l ∈ pre, strContains l "RESET_COMPLETE" = false
            ∧ strContains l "ERROR" = false)
        ∧ strContains line "RESET_COMPLETE" = true)
    ∧ ((serial_reset lines).outcome = .protocolError msg ↔
      ∃ pre post, lines = pre ++ msg :: post
        ∧ (∀ l ∈ pre, strContains l "RESET_COMPLETE" = false
            ∧ strContains l "ERROR" = false)
        ∧ strContains msg "RESET_COMPLETE" = false
        ∧ strContains msg "ERROR" = true)
    ∧ ((serial_reset lines).outcome = .timeout ↔
      ∀ l ∈ lines, strContains l "RESET_COMPLETE" = false
        ∧ strContains l "ERROR" = false) :=
  ⟨serialRespond_success_iff "TRANSFER_COMPLETE" (by decide) lines,
   serialRespond_error_iff "TRANSFER_COMPLETE" (by decide) lines msg,
   serialRespond_timeout_iff "TRANSFER_COMPLETE" (by decide) lines,
   serialRespond_success_iff "RESET_COMPLETE" (by decide) lines,
   serialRespond_error_iff "RESET_COMPLETE" (by decide) lines msg,
   serialRespond_timeout_iff "RESET_COMPLETE" (by decide) lines⟩

/-- C9 counterexample: the raw GUI value `"-5"` is convertible only to the
negative integer −5 — to no non-negative integer — yet `An2Bits` stores
−5 for that key, not 0. -/
theorem C9_counterexample :
    An2Bits [("_TEST_ADD_", GuiVal.vS "-5")] = [("_TEST_ADD_", (-5 : Int))]
    ∧ pyInt (GuiVal.vS "-5") = some (-5)
    ∧ ((-5 : Int) < 0)
    ∧ ((-5 : Int) ≠ 0) := by
  exact ⟨by decide, by decide, by decide, by decide⟩

/-- C9 (amended): `An2Bits` maps a key to 0 (with a warning) exactly when
`int(...)` raises, i.e. when the value is not convertible to *any*
integer; every other key gets the converted integer — booleans
`True`/`False` become 1/0 and numeric strings their integer value,
negative ones included. -/
theorem C9_amended (k : String) (v w : GuiVal) (gui : List (String × GuiVal)) :
    (pyInt v = none → An2Bits ((k, v) :: gui) = (k, 0) :: An2Bits gui)
    ∧ (∀ n : Int, pyInt w = some n → An2Bits ((k, w) :: gui) = (k, n) :: An2Bits gui)
    ∧ pyInt (GuiVal.vB true) = some 1
    ∧ pyInt (GuiVal.vB false) = some 0
    ∧ pyInt (GuiVal.vS "127") = some 127
    ∧ pyInt (GuiVal.vS "-5") = some (-5)
    ∧ pyInt (GuiVal.vS "x7") = none := by
  refine ⟨fun h => ?_, fun n hn => ?_, by decide, by decide, by decide,
    by decide, by decide⟩
  · simp [An2Bits, h]
  · simp [An2Bits, hn]

/-- Witness for C9 (amended): a non-numeric string normalizes to 0, a
numeric one to its value. -/
theorem C9_amended_witness :
    An2Bits [("_SPARE_", GuiVal.vS "x7")] = [("_SPARE_", (0 : Int))]
    ∧ An2Bits [("_SPARE_", GuiVal.vS "7")] = [("_SPARE_", (7 : Int))] :=
  ⟨(C9_amended "_SPARE_" (GuiVal.vS "x7") (GuiVal.vS "7") []).1 (by decide),
   (C9_amended "_SPARE_" (GuiVal.vS "x7") (GuiVal.vS "7") []).2.1 7 (by decide)⟩

/-- C10: `assign_bits` is not total on negative inputs — for every width
≥ 1 (hence every multi-bit field) a negative value puts the sign character
first in the formatted string, so the first loop iteration's
`int(bits[0])` raises `ValueError`; for non-negative values the call
returns the register array of the unsigned embedding.  `RegisterAssignment`
therefore produces its 16 bytes only under the precondition that every
supplied multi-bit field value is non-negative. -/
theorem C10_negative_values (cfg : List Nat) (start w : Nat) (v : Int)
    (hw : 1 ≤ w) :
    (v < 0 → assign_bitsZ cfg start v w = .error "ValueError")
    ∧ (0 ≤ v → assign_bitsZ cfg start v w = .ok (assign_bits cfg start v.toNat w)) :=
  ⟨fun hv => assign_bitsZ_neg cfg start w v hw hv,
   fun hv => assign_bitsZ_nonneg cfg start w v hv⟩

/-- Witness for C10 at the `_TEST_ADD_` call site (`start_bit = 8`,
`width = 4`) with values −1 and 5. -/
theorem C10_negative_values_witness :
    assign_bitsZ (List.replicate 128 0) 8 (-1) 4 = .error "ValueError"
    ∧ assign_bitsZ (List.replicate 128 0) 8 5 4
      = .ok (assign_bits (List.replicate 128 0) 8 5 4) :=
  ⟨(C10_negative_values (List.replicate 128 0) 8 4 (-1) (by decide)).1 (by decide),
   (C10_negative_values (List.replicate 128 0) 8 4 5 (by decide)).2 (by decide)⟩
